import Mathlib

/-!
Shallow embedding of `stats.py` (openstack-health-monitor), a command-line
statistics calculator: it reads numbers from stdin, sorts them, and prints
count, min, median, mean, a configurable percentile and max, in a
human-readable or a machine-readable layout.

Numbers are modelled as exact rationals (`ℚ`): every arithmetic operation of
the source (`+`, `-`, `*`, `/`, `int()`, `abs`) is embedded as the
corresponding exact operation.  Python list indexing `arr[i]` is embedded as
`List.getD arr i 0`; the claims' hypotheses keep every exercised index in
bounds, where `getD` agrees with Python's access.  `print` is embedded as the
string the call writes, without the trailing newline.
-/

namespace StatsPy

/-- `prec = 1e-5` (line 13): global tolerance for the percentile rank. -/
def prec : ℚ := 1 / 100000

/-- Python `int()` applied to a real number: truncation toward zero. -/
def pyInt (q : ℚ) : ℤ := if 0 ≤ q then ⌊q⌋ else ⌈q⌉

/-- `arr.sort()` (line 18): Python's stable ascending sort. -/
def sortA (arr : List ℚ) : List ℚ := arr.insertionSort (· ≤ ·)

/-- Fractional percentile rank `pctpos = (aln - 1) * pct / 100` (line 25). -/
def pctPos (aln : ℕ) (pct : ℚ) : ℚ := ((aln : ℚ) - 1) * pct / 100

/-- Integer rank `pctposi = int(pctpos + prec)` (line 26). -/
def pctPosI (aln : ℕ) (pct : ℚ) : ℤ := pyInt (pctPos aln pct + prec)

/-- Interpolation weight `wgt = pctpos - pctposi` (line 27). -/
def pctWgt (aln : ℕ) (pct : ℚ) : ℚ := pctPos aln pct - pctPosI aln pct

/-- The values computed by `stats` (lines 17-31) before formatting, together
with the min and max read off at the `print` call (line 59). -/
structure StatsResult where
  count : ℕ
  minV : ℚ
  med : ℚ
  avg : ℚ
  pctl : ℚ
  maxV : ℚ
  deriving DecidableEq, Repr

/-- The median (lines 19-23) over the sorted array `a` of length `aln`:
`middle = int(aln / 2)`; the middle element when `aln` is odd, else the mean
of the elements at `middle - 1` and `middle`. -/
def medCompute (a : List ℚ) (aln : ℕ) : ℚ :=
  if aln % 2 ≠ 0 then a.getD (aln / 2) 0
  else (a.getD (aln / 2 - 1) 0 + a.getD (aln / 2) 0) / 2

/-- The percentile (lines 28-31) over the sorted array `a`: `arr[pctposi]`
when `abs(wgt) < prec`, else `arr[pctposi + 1] * wgt + arr[pctposi] * (1 - wgt)`. -/
def pctlCompute (a : List ℚ) (aln : ℕ) (pct : ℚ) : ℚ :=
  if |pctWgt aln pct| < prec then a.getD (pctPosI aln pct).toNat 0
  else a.getD ((pctPosI aln pct).toNat + 1) 0 * pctWgt aln pct
       + a.getD (pctPosI aln pct).toNat 0 * (1 - pctWgt aln pct)

/-- Lines 17-31 and the values `aln`, `arr[0]`, `arr[aln - 1]` used at
line 59: sort, median, mean, and the percentile by linear interpolation
between closest ranks. -/
def statsCompute (arr : List ℚ) (pct : ℚ) : StatsResult :=
  let aln := arr.length
  let a := sortA arr
  { count := aln, minV := a.getD 0 0, med := medCompute a aln,
    avg := a.sum / (aln : ℚ), pctl := pctlCompute a aln pct,
    maxV := a.getD (aln - 1) 0 }

/-- Round a rational to the nearest integer, ties to even: the rounding used
by fixed-point formatting (`"%.Nf"`) of an exactly representable value. -/
def roundHalfEven (q : ℚ) : ℤ :=
  let f := ⌊q⌋
  let r := q - f
  if r < 1 / 2 then f else if 1 / 2 < r then f + 1
  else if f % 2 = 0 then f else f + 1

/-- Left-pad a string with zeros to length `n`. -/
def padZero (s : String) (n : ℕ) : String :=
  String.mk (List.replicate (n - s.length) '0') ++ s

/-- `"{:.Nf}".format(q)` / `"%.Nf" % q` (via `fmt`, line 32): fixed-point
rendering with `digi` digits after the decimal point.  A value whose rounded
magnitude is zero is rendered without a sign (no claim exercises the
negative-zero corner). -/
def formatFixed (digi : ℕ) (q : ℚ) : String :=
  let scaled := roundHalfEven (q * (10 : ℚ) ^ digi)
  let sign := if scaled < 0 then "-" else ""
  let n := scaled.natAbs
  if digi = 0 then sign ++ toString n
  else sign ++ toString (n / 10 ^ digi) ++ "." ++ padZero (toString (n % 10 ^ digi)) digi

/-- Percentile label (lines 33-36): `"%i%%" % pct` when `pct` has no
fractional part, else `"%.2f%%" % pct`. -/
def pctFmt (pct : ℚ) : String :=
  if |pct - (pyInt pct : ℚ)| = 0 then toString (pyInt pct) ++ "%"
  else formatFixed 2 pct ++ "%"

/-- The line printed by `stats` (lines 37-59): the machine layout
`{}|{:f}|{:f}|{:f}|{:f}|{:f}` applied to `(aln, arr[0], med, avg, pctl,
arr[aln-1])`, or one of the two human layouts chosen by `pct > 50`. -/
def statsLine (arr : List ℚ) (pct : ℚ) (digi : ℕ) (machine : Bool) : String :=
  let s := statsCompute arr pct
  let f := formatFixed digi
  if machine then
    toString s.count ++ "|" ++ f s.minV ++ "|" ++ f s.med ++ "|" ++ f s.avg
      ++ "|" ++ f s.pctl ++ "|" ++ f s.maxV
  else if 50 < pct then
    "Num " ++ toString s.count ++ " Min " ++ f s.minV ++ " Med " ++ f s.med
      ++ " Avg " ++ f s.avg ++ " " ++ pctFmt pct ++ " " ++ f s.pctl
      ++ " Max " ++ f s.maxV
  else
    "Num " ++ toString s.count ++ " Min " ++ f s.minV ++ " " ++ pctFmt pct
      ++ " " ++ f s.pctl ++ " Med " ++ f s.med ++ " Avg " ++ f s.avg
      ++ " Max " ++ f s.maxV

/-- The percentile formula exactly as the specification words it (§4.1):
`pos = (count - 1) * pct / 100`, `posi = floor(pos + ε)` with `ε = 1e-5`,
`weight = pos - posi`; if `|weight| < ε` the value is `arr[posi]` of the
sorted array, else `arr[posi+1] * weight + arr[posi] * (1 - weight)`.
Stated with the mathematical floor, to be compared with the source's
`int()` truncation in `statsCompute`. -/
def percentileSpec (arr : List ℚ) (pct : ℚ) : ℚ :=
  let a := sortA arr
  let pos := ((arr.length : ℚ) - 1) * pct / 100
  let posi := ⌊pos + prec⌋
  let weight := pos - posi
  if |weight| < prec then a.getD posi.toNat 0
  else a.getD (posi.toNat + 1) 0 * weight + a.getD posi.toNat 0 * (1 - weight)

/-! ### The command-line driver (`main`, lines 62-85)

Python's `float()` and `int()` string conversions are embedded as parsers
over the characters of the token: optional surrounding blanks, an optional
sign, then for `float()` a decimal mantissa with optional fraction and
optional exponent, for `int()` decimal digits only.  A token they reject
(`None` here) makes the Python call raise `ValueError`.  (`inf`/`nan`
spellings and underscore separators are not exercised by any claim and are
rejected by the model.) -/

/-- Characters stripped by Python's number parsing (whitespace). -/
def isPyBlank (c : Char) : Bool :=
  c = ' ' || c = '\t' || c = '\n' || c = '\r' || c = '\x0c' || c = '\x0b'

/-- Numeric value of a list of decimal digits. -/
def digitsVal (ds : List Char) : ℕ :=
  ds.foldl (fun a c => 10 * a + (c.toNat - '0'.toNat)) 0

/-- Strip surrounding blanks from a token. -/
def stripBlanks (s : List Char) : List Char :=
  ((s.dropWhile isPyBlank).reverse.dropWhile isPyBlank).reverse

/-- Parse an unsigned decimal mantissa `digits [. digits]` (at least one
digit overall), returning its value and the unconsumed rest. -/
def parseMantissa (s : List Char) : Option (ℚ × List Char) :=
  let ip := s.takeWhile Char.isDigit
  match s.dropWhile Char.isDigit with
  | '.' :: r2 =>
    let fp := r2.takeWhile Char.isDigit
    if ip.isEmpty && fp.isEmpty then none
    else some ((digitsVal ip : ℚ) + (digitsVal fp : ℚ) / 10 ^ fp.length,
               r2.dropWhile Char.isDigit)
  | r1 => if ip.isEmpty then none else some ((digitsVal ip : ℚ), r1)

/-- Parse an optional exponent part `e[±]digits`; absent means exponent 0. -/
def parseExpPart (s : List Char) : Option (ℤ × List Char) :=
  match s with
  | 'e' :: r | 'E' :: r =>
    let (sgn, u) : ℤ × List Char :=
      match r with
      | '+' :: r2 => (1, r2)
      | '-' :: r2 => (-1, r2)
      | _ => (1, r)
    let ds := u.takeWhile Char.isDigit
    if ds.isEmpty then none
    else some (sgn * (digitsVal ds : ℤ), u.dropWhile Char.isDigit)
  | _ => some (0, s)

/-- Python `float(tok)` (lines 70 and 84): `some` value or `none` for a
`ValueError`. -/
def pyFloatParse (tok : List Char) : Option ℚ :=
  let t := stripBlanks tok
  let (sgn, u) : ℚ × List Char :=
    match t with
    | '+' :: r => (1, r)
    | '-' :: r => (-1, r)
    | _ => (1, t)
  match parseMantissa u with
  | none => none
  | some (m, r) =>
    match parseExpPart r with
    | none => none
    | some (e, rest) => if rest.isEmpty then some (sgn * m * (10 : ℚ) ^ e) else none

/-- Python `int(tok)` (line 73): decimal digits with optional sign. -/
def pyIntParse (tok : List Char) : Option ℤ :=
  let t := stripBlanks tok
  let (sgn, u) : ℤ × List Char :=
    match t with
    | '+' :: r => (1, r)
    | '-' :: r => (-1, r)
    | _ => (1, t)
  if u.isEmpty || !u.all Char.isDigit then none
  else some (sgn * (digitsVal u : ℤ))

/-- How a run of `main` ends before `stats` is reached: parsed parameters,
the handled usage error (message printed to stdout, `sys.exit(1)`), or an
unhandled exception (missing option value → `IndexError`; unparsable value
→ `ValueError`). -/
inductive ArgOutcome where
  | ok (pct : ℚ) (dig : ℤ) (machine : Bool)
  | usage (tok : String)
  | indexError
  | valueError (tok : String)
  deriving DecidableEq, Repr

/-- The option-scanning loop of `main` (lines 67-82), carrying the current
`pct`, `dig` and `machine` values. -/
def parseArgs : List String → ℚ → ℤ → Bool → ArgOutcome
  | [], pct, dig, m => .ok pct dig m
  | a :: rest, pct, dig, m =>
    if a = "-p" then
      match rest with
      | [] => .indexError
      | v :: rest2 =>
        match pyFloatParse v.toList with
        | none => .valueError v
        | some q => parseArgs rest2 q dig m
    else if a = "-d" then
      match rest with
      | [] => .indexError
      | v :: rest2 =>
        match pyIntParse v.toList with
        | none => .valueError v
        | some k => parseArgs rest2 pct k m
    else if a = "-m" then parseArgs rest pct dig true
    else .usage a

/-- `main`'s argument scan started from the defaults `pct=95`, `dig=2`,
`machine=False` (lines 63-65). -/
def runArgs (argv : List String) : ArgOutcome := parseArgs argv 95 2 false

/-- Where and how a handled error is reported. -/
structure ErrorReport where
  msg : String
  onStderr : Bool
  exitCode : ℕ
  deriving DecidableEq, Repr

/-- The usage-error report (lines 77-81): the message built by
`'Error: Unknown option "%s". Usage stats.py [-p pct] [-d dig] [-m] < data'`,
written by `print` (stdout), followed by `sys.exit(1)`. -/
def usageReport (tok : String) : ErrorReport :=
  { msg := "Error: Unknown option \"" ++ tok ++ "\". Usage stats.py [-p pct] [-d dig] [-m] < data"
    onStderr := false
    exitCode := 1 }

/-- An argument list consisting solely of complete, parsable option groups:
`-m`, or `-p`/`-d` followed by a token its conversion accepts.  The scan
runs through such a list without stopping. -/
inductive FlagsOnly : List String → Prop where
  | nil : FlagsOnly []
  | m {l} : FlagsOnly l → FlagsOnly ("-m" :: l)
  | p {v l q} : pyFloatParse v.toList = some q → FlagsOnly l → FlagsOnly ("-p" :: v :: l)
  | d {v l k} : pyIntParse v.toList = some k → FlagsOnly l → FlagsOnly ("-d" :: v :: l)

/-! ### Standard-input tokenization (line 84)

`sys.stdin.read().rstrip("\n").split(" ")`: strip trailing newlines, then
split on every single space, keeping empty pieces; Python's `split` with an
explicit separator always returns at least one piece. -/

/-- Python `s.split(" ")`: split at each space, keeping empty pieces. -/
def splitOnSpace : List Char → List (List Char)
  | [] => [[]]
  | c :: cs =>
    if c = ' ' then [] :: splitOnSpace cs
    else
      match splitOnSpace cs with
      | [] => [[c]]
      | t :: ts => (c :: t) :: ts

/-- Python `s.rstrip("\n")`: drop trailing newline characters. -/
def rstripNl (s : List Char) : List Char :=
  (s.reverse.dropWhile (· = '\n')).reverse

/-- The driver's tokenization of the whole standard input (line 84). -/
def tokenize (s : List Char) : List (List Char) :=
  splitOnSpace (rstripNl s)

/-- `list(map(lambda x: float(x), tokens))` (line 84): all tokens converted,
or `none` when some `float()` call raises. -/
def parseFloats : List (List Char) → Option (List ℚ)
  | [] => some []
  | t :: ts =>
    match pyFloatParse t, parseFloats ts with
    | some x, some xs => some (x :: xs)
    | _, _ => none

/-! ### Basic facts about the embedded operations -/

theorem sortA_sorted (arr : List ℚ) : (sortA arr).Sorted (· ≤ ·) :=
  List.sorted_insertionSort _ arr

theorem sortA_perm (arr : List ℚ) : List.Perm (sortA arr) arr :=
  List.perm_insertionSort _ arr

theorem sortA_idem (arr : List ℚ) : sortA (sortA arr) = sortA arr :=
  (sortA_sorted arr).insertionSort_eq

theorem sortA_length (arr : List ℚ) : (sortA arr).length = arr.length :=
  (sortA_perm arr).length_eq

theorem statsCompute_sortA (arr : List ℚ) (pct : ℚ) :
    statsCompute (sortA arr) pct = statsCompute arr pct := by
  simp only [statsCompute, sortA_idem, sortA_length]

/-- C9: rerunning the calculator on the same input yields the same output;
in particular, since `stats` sorts its argument in place, a second call on
the now-sorted list prints the same line as the first call on the unsorted
list. -/
theorem statsLine_sortA (arr : List ℚ) (pct : ℚ) (digi : ℕ) (machine : Bool) :
    statsLine (sortA arr) pct digi machine = statsLine arr pct digi machine := by
  simp only [statsLine, statsCompute_sortA]

theorem splitOnSpace_ne_nil (s : List Char) : splitOnSpace s ≠ [] := by
  induction s with
  | nil => simp [splitOnSpace]
  | cons c cs ih =>
    rw [splitOnSpace]
    by_cases h : c = ' '
    · simp [h]
    · rw [if_neg h]
      cases hcs : splitOnSpace cs <;> simp

theorem parseFloats_cons_ne_some_nil (t : List Char) (ts : List (List Char)) :
    parseFloats (t :: ts) ≠ some [] := by
  simp only [parseFloats]
  cases pyFloatParse t <;> cases parseFloats ts <;> simp

/-- C10: the driver's tokenization always yields at least one token, so the
list handed to `stats` is never empty; empty standard input yields the
single empty token `""`, which `float()` rejects, so the empty-sequence
failure inside the statistics computation is unreachable through the CLI. -/
theorem tokenize_never_empty :
    (∀ s : List Char, tokenize s ≠ [] ∧ parseFloats (tokenize s) ≠ some []) ∧
    tokenize [] = [[]] ∧ parseFloats (tokenize []) = none := by
  refine ⟨fun s => ⟨splitOnSpace_ne_nil _, ?_⟩, rfl, rfl⟩
  cases h : tokenize s with
  | nil => exact absurd h (splitOnSpace_ne_nil _)
  | cons t ts => exact parseFloats_cons_ne_some_nil t ts

/-- C6: in human-readable mode the fields appear as `Num`, `Min`, `Med`,
`Avg`, percentile label, `Max` when `pct > 50`, and as `Num`, `Min`,
percentile label, `Med`, `Avg`, `Max` when `pct <= 50`. -/
theorem humanLine_layout (arr : List ℚ) (pct : ℚ) (digi : ℕ) :
    statsLine arr pct digi false =
      (if 50 < pct then
        "Num " ++ toString (statsCompute arr pct).count
          ++ " Min " ++ formatFixed digi (statsCompute arr pct).minV
          ++ " Med " ++ formatFixed digi (statsCompute arr pct).med
          ++ " Avg " ++ formatFixed digi (statsCompute arr pct).avg
          ++ " " ++ pctFmt pct ++ " " ++ formatFixed digi (statsCompute arr pct).pctl
          ++ " Max " ++ formatFixed digi (statsCompute arr pct).maxV
      else
        "Num " ++ toString (statsCompute arr pct).count
          ++ " Min " ++ formatFixed digi (statsCompute arr pct).minV
          ++ " " ++ pctFmt pct ++ " " ++ formatFixed digi (statsCompute arr pct).pctl
          ++ " Med " ++ formatFixed digi (statsCompute arr pct).med
          ++ " Avg " ++ formatFixed digi (statsCompute arr pct).avg
          ++ " Max " ++ formatFixed digi (statsCompute arr pct).maxV) := rfl

/-- C2, counterexample: on input `10 20 30 40` with `-m` and the default
parameters the program does not print the line the claim names (the
percentile field is `38.50`, not `39.00`). -/
theorem machineLine_example_ne_claimed :
    statsLine [10, 20, 30, 40] 95 2 true ≠ "4|10.00|25.00|25.00|39.00|40.00" := by
  with_unfolding_all decide

/-- C2 (amended): machine mode emits the fields in the fixed pipe-delimited
order `count|min|med|avg|pctval|max`, each statistic formatted to `digi`
digits and with no percentile label; on input `10 20 30 40` with `-m` and
the defaults the line is `4|10.00|25.00|25.00|38.50|40.00`. -/
theorem machineLine_layout :
    (∀ (arr : List ℚ) (pct : ℚ) (digi : ℕ),
      statsLine arr pct digi true =
        toString (statsCompute arr pct).count
          ++ "|" ++ formatFixed digi (statsCompute arr pct).minV
          ++ "|" ++ formatFixed digi (statsCompute arr pct).med
          ++ "|" ++ formatFixed digi (statsCompute arr pct).avg
          ++ "|" ++ formatFixed digi (statsCompute arr pct).pctl
          ++ "|" ++ formatFixed digi (statsCompute arr pct).maxV) ∧
    statsLine [10, 20, 30, 40] 95 2 true = "4|10.00|25.00|25.00|38.50|40.00" :=
  ⟨fun _ _ _ => rfl, by with_unfolding_all decide⟩

theorem parseArgs_cons (a : String) (rest : List String) (pct : ℚ) (dig : ℤ) (m : Bool) :
    parseArgs (a :: rest) pct dig m =
      if a = "-p" then
        match rest with
        | [] => .indexError
        | v :: rest2 =>
          match pyFloatParse v.toList with
          | none => .valueError v
          | some q => parseArgs rest2 q dig m
      else if a = "-d" then
        match rest with
        | [] => .indexError
        | v :: rest2 =>
          match pyIntParse v.toList with
          | none => .valueError v
          | some k => parseArgs rest2 pct k m
      else if a = "-m" then parseArgs rest pct dig true
      else .usage a := by
  cases rest <;> rfl

theorem parseArgs_usage {pre : List String} (hpre : FlagsOnly pre) :
    ∀ (pct : ℚ) (dig : ℤ) (m : Bool) (tok : String) (rest : List String),
      tok ≠ "-p" → tok ≠ "-d" → tok ≠ "-m" →
      parseArgs (pre ++ tok :: rest) pct dig m = .usage tok := by
  induction hpre with
  | nil =>
    intro pct dig m tok rest hp hd hm
    rw [List.nil_append, parseArgs_cons, if_neg hp, if_neg hd, if_neg hm]
  | m hl ih =>
    intro pct dig m tok rest hp hd hm
    rw [List.cons_append, parseArgs_cons, if_neg (by decide), if_neg (by decide),
      if_pos rfl]
    exact ih pct dig true tok rest hp hd hm
  | p hv hl ih =>
    intro pct dig m tok rest hp hd hm
    rw [List.cons_append, List.cons_append, parseArgs_cons, if_pos rfl]
    simp only [hv]
    exact ih _ dig m tok rest hp hd hm
  | d hv hl ih =>
    intro pct dig m tok rest hp hd hm
    rw [List.cons_append, List.cons_append, parseArgs_cons, if_neg (by decide),
      if_pos rfl]
    simp only [hv]
    exact ih pct _ m tok rest hp hd hm

/-- C7, counterexample: in `["-p", "abc", "-x"]` the token `-x` is neither a
recognized flag nor consumed as an option value, yet the run ends in the
unhandled `ValueError` from `float("abc")` — no usage error referencing
`-x` is printed. -/
theorem unknownOption_not_always_usage :
    runArgs ["-p", "abc", "-x"] = ArgOutcome.valueError "abc" ∧
    runArgs ["-p", "abc", "-x"] ≠ ArgOutcome.usage "-x" := by
  with_unfolding_all decide

/-- C7 (amended): whenever the tokens before an unrecognized token form
complete option groups (`-m`, or `-p`/`-d` each followed by a value its
conversion accepts), the scan reaches that token and the driver reports the
usage error naming it, printed to standard output (not standard error),
with exit status 1; the usage path is the only handled error path, all
other failures being the raw `IndexError`/`ValueError` outcomes. -/
theorem unknownOption_usage {pre : List String} (tok : String) (rest : List String)
    (hpre : FlagsOnly pre) (hp : tok ≠ "-p") (hd : tok ≠ "-d") (hm : tok ≠ "-m") :
    runArgs (pre ++ tok :: rest) = .usage tok ∧
    (usageReport tok).msg =
      "Error: Unknown option \"" ++ tok
        ++ "\". Usage stats.py [-p pct] [-d dig] [-m] < data" ∧
    (usageReport tok).onStderr = false ∧ (usageReport tok).exitCode = 1 :=
  ⟨parseArgs_usage hpre 95 2 false tok rest hp hd hm, rfl, rfl, rfl⟩

/-- C7 (amended), witness at `["-m", "-x", "foo"]`. -/
theorem unknownOption_usage_witness :
    ("-x" : String) ≠ "-p" ∧ ("-x" : String) ≠ "-d" ∧ ("-x" : String) ≠ "-m" ∧
    (runArgs (["-m"] ++ "-x" :: ["foo"]) = .usage "-x" ∧
      (usageReport "-x").msg =
        "Error: Unknown option \"" ++ "-x"
          ++ "\". Usage stats.py [-p pct] [-d dig] [-m] < data" ∧
      (usageReport "-x").onStderr = false ∧ (usageReport "-x").exitCode = 1) :=
  ⟨by decide, by decide, by decide,
    unknownOption_usage "-x" ["foo"] (FlagsOnly.m FlagsOnly.nil)
      (by decide) (by decide) (by decide)⟩

theorem prec_pos : (0 : ℚ) < prec := by norm_num [prec]

theorem pyInt_of_nonneg {q : ℚ} (h : 0 ≤ q) : pyInt q = ⌊q⌋ := if_pos h

theorem floor_add_prec (k : ℤ) : ⌊(k : ℚ) + prec⌋ = k := by
  rw [Int.floor_eq_iff]
  constructor
  · linarith [prec_pos]
  · norm_num [prec]

theorem pyInt_add_prec (k : ℤ) (hk : 0 ≤ k) : pyInt ((k : ℚ) + prec) = k := by
  have h0 : (0 : ℚ) ≤ (k : ℚ) + prec := by
    have : (0 : ℚ) ≤ (k : ℚ) := by exact_mod_cast hk
    linarith [prec_pos]
  rw [pyInt_of_nonneg h0, floor_add_prec]

theorem statsCompute_pctl (arr : List ℚ) (pct : ℚ) :
    (statsCompute arr pct).pctl = pctlCompute (sortA arr) arr.length pct := rfl

theorem pctPos_hundred (arr : List ℚ) :
    pctPos arr.length 100 = ((arr.length : ℤ) - 1 : ℤ) := by
  unfold pctPos; push_cast; ring

theorem pctPosI_hundred (arr : List ℚ) (hn : 1 ≤ arr.length) :
    pctPosI arr.length 100 = (arr.length : ℤ) - 1 := by
  rw [pctPosI, pctPos_hundred, pyInt_add_prec _ (by omega)]

theorem pctWgt_hundred (arr : List ℚ) (hn : 1 ≤ arr.length) :
    pctWgt arr.length 100 = 0 := by
  rw [pctWgt, pctPos_hundred, pctPosI_hundred arr hn]; push_cast; ring

theorem pctl_hundred_eq_last (arr : List ℚ) (hn : 1 ≤ arr.length) :
    (statsCompute arr 100).pctl = (sortA arr).getD (arr.length - 1) 0 := by
  rw [statsCompute_pctl, pctlCompute, pctWgt_hundred arr hn,
    if_pos (by simpa using prec_pos), pctPosI_hundred arr hn]
  congr 1
  omega

/-- C4: with `pct = 0` the percentile is the first element of the sorted
array (the minimum), and with `pct = 100` it is the last element (the
maximum). -/
theorem pct_extremes (arr : List ℚ) (h : arr ≠ []) :
    (statsCompute arr 0).pctl = (sortA arr).getD 0 0 ∧
    (statsCompute arr 100).pctl = (sortA arr).getD (arr.length - 1) 0 := by
  have hn : 1 ≤ arr.length := List.length_pos.mpr h
  constructor
  · rw [statsCompute_pctl]
    have hpos : pctPos arr.length 0 = 0 := by unfold pctPos; ring
    have hposi : pctPosI arr.length 0 = 0 := by
      rw [pctPosI, hpos]
      simpa using pyInt_add_prec 0 le_rfl
    have hwgt : pctWgt arr.length 0 = 0 := by
      rw [pctWgt, hpos, hposi]; simp
    rw [pctlCompute, hwgt, if_pos (by simpa using prec_pos), hposi]
    rfl
  · exact pctl_hundred_eq_last arr hn

/-- C3: at `pct = 100` the rank `pos = count - 1` is exact, the
`|weight| < prec` branch is taken (so the interpolation branch, whose
unguarded access `arr[posi + 1]` would read index `count`, is unreachable),
and the percentile is the last element of the sorted array. -/
theorem pct100_no_overflow (arr : List ℚ) (h : arr ≠ []) :
    |pctWgt arr.length 100| < prec ∧
    pctPosI arr.length 100 + 1 = (arr.length : ℤ) ∧
    (statsCompute arr 100).pctl = (sortA arr).getD (arr.length - 1) 0 := by
  have hn : 1 ≤ arr.length := List.length_pos.mpr h
  refine ⟨by simpa [pctWgt_hundred arr hn] using prec_pos, ?_, pctl_hundred_eq_last arr hn⟩
  rw [pctPosI_hundred arr hn]
  omega

/-- C4, witness at `[3, 1, 2]`. -/
theorem pct_extremes_witness :
    ([3, 1, 2] : List ℚ) ≠ [] ∧
    ((statsCompute [3, 1, 2] 0).pctl = (sortA [3, 1, 2]).getD 0 0 ∧
      (statsCompute [3, 1, 2] 100).pctl =
        (sortA [3, 1, 2]).getD (([3, 1, 2] : List ℚ).length - 1) 0) :=
  ⟨by simp, pct_extremes [3, 1, 2] (by simp)⟩

/-- C3, witness at `[1, 2]`. -/
theorem pct100_no_overflow_witness :
    ([1, 2] : List ℚ) ≠ [] ∧
    (|pctWgt ([1, 2] : List ℚ).length 100| < prec ∧
      pctPosI ([1, 2] : List ℚ).length 100 + 1 = (([1, 2] : List ℚ).length : ℤ) ∧
      (statsCompute [1, 2] 100).pctl = (sortA [1, 2]).getD (([1, 2] : List ℚ).length - 1) 0) :=
  ⟨by simp, pct100_no_overflow [1, 2] (by simp)⟩

/-- C1: for a non-empty list and `pct` in `(0, 100]` the percentile computed
by the source (with `int()` truncation) is exactly the value the
specification describes (with mathematical floor): `pos = (count-1)*pct/100`,
`posi = floor(pos + ε)`, `weight = pos - posi`, then `arr[posi]` when
`|weight| < ε` and `arr[posi+1]*weight + arr[posi]*(1-weight)` otherwise. -/
theorem percentile_refines_spec (arr : List ℚ) (pct : ℚ) (h : arr ≠ [])
    (h0 : 0 < pct) (_h100 : pct ≤ 100) :
    (statsCompute arr pct).pctl = percentileSpec arr pct := by
  have hn : 1 ≤ arr.length := List.length_pos.mpr h
  have hpos : 0 ≤ pctPos arr.length pct := by
    rw [pctPos]
    have h1 : (0 : ℚ) ≤ (arr.length : ℚ) - 1 := by
      have : (1 : ℚ) ≤ (arr.length : ℚ) := by exact_mod_cast hn
      linarith
    have := mul_nonneg h1 h0.le
    linarith
  have hint : pctPosI arr.length pct = ⌊pctPos arr.length pct + prec⌋ := by
    rw [pctPosI, pyInt_of_nonneg (by linarith [prec_pos])]
  rw [statsCompute_pctl, pctlCompute, percentileSpec, pctWgt, hint, pctPos]

/-- C1, witness at `[1, 2]`, `pct = 95`. -/
theorem percentile_refines_spec_witness :
    ([1, 2] : List ℚ) ≠ [] ∧ (0 : ℚ) < 95 ∧ (95 : ℚ) ≤ 100 ∧
    (statsCompute [1, 2] 95).pctl = percentileSpec [1, 2] 95 :=
  ⟨by simp, by norm_num, by norm_num,
    percentile_refines_spec [1, 2] 95 (by simp) (by norm_num) (by norm_num)⟩

/-- C5: the percentile at `pct = 50` equals the median: the exact middle
element when the count is odd, and for an even count the midpoint
interpolation agrees with the mean of the two central elements. -/
theorem pct50_eq_median (arr : List ℚ) (h : arr ≠ []) :
    (statsCompute arr 50).pctl = (statsCompute arr 50).med := by
  have hn : 1 ≤ arr.length := List.length_pos.mpr h
  have hmed : (statsCompute arr 50).med = medCompute (sortA arr) arr.length := rfl
  rw [statsCompute_pctl, hmed]
  rcases Nat.even_or_odd arr.length with he | ho
  · obtain ⟨k, hk⟩ := he
    have hk1 : 1 ≤ k := by omega
    have hpos : pctPos arr.length 50 = (k : ℚ) - 1 / 2 := by
      rw [pctPos, hk]; push_cast; ring
    have hposi : pctPosI arr.length 50 = (k : ℤ) - 1 := by
      have h0 : (0 : ℚ) ≤ (k : ℚ) - 1 / 2 + prec := by
        have : (1 : ℚ) ≤ (k : ℚ) := by exact_mod_cast hk1
        linarith [prec_pos]
      rw [pctPosI, hpos, pyInt_of_nonneg h0, Int.floor_eq_iff]
      constructor <;> · push_cast; norm_num [prec]; try linarith
    have hwgt : pctWgt arr.length 50 = 1 / 2 := by
      rw [pctWgt, hpos, hposi]; push_cast; ring
    have ht : ((k : ℤ) - 1).toNat = k - 1 := by omega
    have h2 : arr.length / 2 = k := by omega
    have h3 : k - 1 + 1 = k := by omega
    have habs : ¬(|pctWgt arr.length 50| < prec) := by
      rw [hwgt, abs_of_nonneg (by norm_num)]; norm_num [prec]
    rw [pctlCompute, if_neg habs, hwgt, medCompute,
      if_neg (by omega), hposi, ht, h2, h3]
    ring
  · obtain ⟨k, hk⟩ := ho
    have hpos : pctPos arr.length 50 = (k : ℚ) := by
      rw [pctPos, hk]; push_cast; ring
    have hposi : pctPosI arr.length 50 = (k : ℤ) := by
      rw [pctPosI, hpos]
      have := pyInt_add_prec (k : ℤ) (by positivity)
      simpa using this
    have hwgt : pctWgt arr.length 50 = 0 := by
      rw [pctWgt, hpos, hposi]; push_cast; ring
    have h2 : arr.length / 2 = k := by omega
    rw [pctlCompute, hwgt, if_pos (by simpa using prec_pos), medCompute,
      if_pos (by omega), hposi, h2]
    simp

/-- C5, witness at `[10, 20, 30, 40]` (even count). -/
theorem pct50_eq_median_witness :
    ([10, 20, 30, 40] : List ℚ) ≠ [] ∧
    (statsCompute [10, 20, 30, 40] 50).pctl = (statsCompute [10, 20, 30, 40] 50).med :=
  ⟨by simp, pct50_eq_median [10, 20, 30, 40] (by simp)⟩

theorem getD_mem {l : List ℚ} {i : ℕ} (h : i < l.length) : l.getD i 0 ∈ l := by
  rw [List.getD_eq_getElem l 0 h]
  exact List.getElem_mem h

theorem sorted_head_le {l : List ℚ} (hs : l.Sorted (· ≤ ·)) {x : ℚ} (hx : x ∈ l) :
    l.getD 0 0 ≤ x := by
  cases l with
  | nil => cases hx
  | cons a t =>
    rcases List.mem_cons.mp hx with rfl | hxt
    · simp
    · simpa using (List.sorted_cons.mp hs).1 x hxt

theorem sorted_le_last {l : List ℚ} (hs : l.Sorted (· ≤ ·)) {x : ℚ} (hx : x ∈ l) :
    x ≤ l.getD (l.length - 1) 0 := by
  induction l with
  | nil => cases hx
  | cons a t ih =>
    cases t with
    | nil => simp_all
    | cons b t' =>
      have hlast : ((a :: b :: t') : List ℚ).getD ((a :: b :: t').length - 1) 0
          = ((b :: t') : List ℚ).getD ((b :: t').length - 1) 0 := by
        simp [List.getD]
      rw [hlast]
      rcases List.mem_cons.mp hx with rfl | hxt
      · have hmem : ((b :: t') : List ℚ).getD ((b :: t').length - 1) 0 ∈ (b :: t') :=
          getD_mem (by simp)
        exact (List.sorted_cons.mp hs).1 _ hmem
      · exact ih (List.sorted_cons.mp hs).2 hxt

theorem mul_length_le_sum {l : List ℚ} {m : ℚ} (h : ∀ x ∈ l, m ≤ x) :
    m * l.length ≤ l.sum := by
  induction l with
  | nil => simp
  | cons a t ih =>
    have ha := h a (List.mem_cons_self a t)
    have ht := ih fun x hx => h x (List.mem_cons_of_mem a hx)
    simp only [List.sum_cons, List.length_cons]
    push_cast
    nlinarith

theorem sum_le_mul_length {l : List ℚ} {m : ℚ} (h : ∀ x ∈ l, x ≤ m) :
    l.sum ≤ m * l.length := by
  induction l with
  | nil => simp
  | cons a t ih =>
    have ha := h a (List.mem_cons_self a t)
    have ht := ih fun x hx => h x (List.mem_cons_of_mem a hx)
    simp only [List.sum_cons, List.length_cons]
    push_cast
    nlinarith

/-- C8: for a non-empty input, `min ≤ median ≤ max` and `min ≤ mean ≤ max`,
with min and max the first and last elements of the sorted array. -/
theorem min_le_med_avg_le_max (arr : List ℚ) (pct : ℚ) (h : arr ≠ []) :
    (statsCompute arr pct).minV ≤ (statsCompute arr pct).med ∧
    (statsCompute arr pct).med ≤ (statsCompute arr pct).maxV ∧
    (statsCompute arr pct).minV ≤ (statsCompute arr pct).avg ∧
    (statsCompute arr pct).avg ≤ (statsCompute arr pct).maxV := by
  have hn : 1 ≤ arr.length := List.length_pos.mpr h
  have hs := sortA_sorted arr
  have hlen : (sortA arr).length = arr.length := sortA_length arr
  have hminV : (statsCompute arr pct).minV = (sortA arr).getD 0 0 := rfl
  have hmaxV : (statsCompute arr pct).maxV = (sortA arr).getD (arr.length - 1) 0 := rfl
  have hmaxV' : (statsCompute arr pct).maxV = (sortA arr).getD ((sortA arr).length - 1) 0 := by
    rw [hmaxV, hlen]
  have hmed : (statsCompute arr pct).med = medCompute (sortA arr) arr.length := rfl
  have havg : (statsCompute arr pct).avg = (sortA arr).sum / (arr.length : ℚ) := rfl
  have hlow : ∀ x ∈ sortA arr, (statsCompute arr pct).minV ≤ x := by
    intro x hx; rw [hminV]; exact sorted_head_le hs hx
  have hhigh : ∀ x ∈ sortA arr, x ≤ (statsCompute arr pct).maxV := by
    intro x hx; rw [hmaxV']; exact sorted_le_last hs hx
  have hmid : arr.length / 2 < arr.length := by omega
  have hmid1 : arr.length / 2 - 1 < arr.length := by omega
  have hmem : (sortA arr).getD (arr.length / 2) 0 ∈ sortA arr :=
    getD_mem (by rw [hlen]; exact hmid)
  have hmem1 : (sortA arr).getD (arr.length / 2 - 1) 0 ∈ sortA arr :=
    getD_mem (by rw [hlen]; exact hmid1)
  have hmedlow : (statsCompute arr pct).minV ≤ (statsCompute arr pct).med := by
    rw [hmed, medCompute]
    by_cases hp : arr.length % 2 ≠ 0
    · rw [if_pos hp]; exact hlow _ hmem
    · rw [if_neg hp]
      have h1 := hlow _ hmem1
      have h2 := hlow _ hmem
      linarith
  have hmedhigh : (statsCompute arr pct).med ≤ (statsCompute arr pct).maxV := by
    rw [hmed, medCompute]
    by_cases hp : arr.length % 2 ≠ 0
    · rw [if_pos hp]; exact hhigh _ hmem
    · rw [if_neg hp]
      have h1 := hhigh _ hmem1
      have h2 := hhigh _ hmem
      linarith
  have hnq : (0 : ℚ) < (arr.length : ℚ) := by exact_mod_cast hn
  have hsumlow : (statsCompute arr pct).minV * (arr.length : ℚ) ≤ (sortA arr).sum := by
    have := mul_length_le_sum hlow
    rwa [hlen] at this
  have hsumhigh : (sortA arr).sum ≤ (statsCompute arr pct).maxV * (arr.length : ℚ) := by
    have := sum_le_mul_length hhigh
    rwa [hlen] at this
  refine ⟨hmedlow, hmedhigh, ?_, ?_⟩
  · rw [havg, le_div_iff₀ hnq]
    exact hsumlow
  · rw [havg, div_le_iff₀ hnq]
    exact hsumhigh

/-- C8, witness at `[3, 1, 2]`, default `pct = 95`. -/
theorem min_le_med_avg_le_max_witness :
    ([3, 1, 2] : List ℚ) ≠ [] ∧
    ((statsCompute [3, 1, 2] 95).minV ≤ (statsCompute [3, 1, 2] 95).med ∧
      (statsCompute [3, 1, 2] 95).med ≤ (statsCompute [3, 1, 2] 95).maxV ∧
      (statsCompute [3, 1, 2] 95).minV ≤ (statsCompute [3, 1, 2] 95).avg ∧
      (statsCompute [3, 1, 2] 95).avg ≤ (statsCompute [3, 1, 2] 95).maxV) :=
  ⟨by simp, min_le_med_avg_le_max [3, 1, 2] 95 (by simp)⟩

end StatsPy
